import Mathlib

/-!
Verification of the uncertainty core of the llm_uncertainty repository.

The repository implements the LogTokU uncertainty estimation method (Ma et
al., 2025) together with two baseline token-uncertainty aggregates (naive and
vanilla).  The mathematical definitions are stated in the walkthrough notebook
`llms.ipynb` (cell-16); the surrounding validation and reduction policies come
from the specification.  Exact arithmetic (over ℚ) models the evidence
pipeline; the softmax-based confidence extraction is modelled over ℝ.  The
digamma function, which has no Mathlib counterpart, enters the theorems as an
abstract function together with hypotheses stating its true properties
(recurrence, monotonicity).
-/

namespace LLMUncertainty

/-- Elementwise ReLU applied to evidence entries (llms.ipynb cell-16:
suppress the negative coefficients by element-wise ReLU). -/
def relu (x : ℚ) : ℚ := max x 0

/-- Deterministic descending sort used for top-κ selection (cell-16 selects the
top-κ values of the logit vector; torch.topk returns them in descending
order). -/
def sortDesc (l : List ℚ) : List ℚ := l.insertionSort (· ≥ ·)

/-- Evidence vector of one step (spec data model): the κ selected, clipped
evidence values together with the total evidence α₀. -/
structure EvidenceVector where
  values : List ℚ
  total : ℚ
deriving DecidableEq

/-- Evidence Transformer (cell-16): select the top-κ raw scores, clip negative
entries to zero, and record the total evidence α₀ as the sum. -/
def evidenceOfScores (kappa : ℕ) (scores : List ℚ) : EvidenceVector :=
  let vals := ((sortDesc scores).take kappa).map relu
  ⟨vals, vals.sum⟩

/-- Aleatoric uncertainty of one step (cell-16):
−Σ_t (α_t/α₀)·(ψ(α_t+1) − ψ(α₀+1)), with ψ the digamma function passed in as
an abstract argument. -/
def aleatoricOf (ψ : ℚ → ℚ) (alpha : List ℚ) : ℚ :=
  -(alpha.map (fun a => a / alpha.sum * (ψ (a + 1) - ψ (alpha.sum + 1)))).sum

/-- Epistemic uncertainty of one step (cell-16): κ / Σ_t (α_t + 1). -/
def epistemicOf (alpha : List ℚ) : ℚ :=
  (alpha.length : ℚ) / (alpha.map (fun a => a + 1)).sum

/-- Per-step uncertainty record (spec data model). -/
structure StepUncertainty where
  aleatoric : ℚ
  epistemic : ℚ
  unreliability : ℚ
deriving DecidableEq

/-- Aleatoric/Epistemic Calculator for one step.  The non-degenerate branch
follows the formulas of cell-16, including unreliability = epistemic·aleatoric.
Modelled from the spec: the α₀ = 0 fallback (epistemic = 1, aleatoric = 0,
spec error-handling policy for DegenerateEvidence) — `uncertainty.py`, which
implements this, is not part of the available sources. -/
def stepUncertaintyOf (ψ : ℚ → ℚ) (ev : EvidenceVector) : StepUncertainty :=
  if ev.total = 0 then ⟨0, 1, 0⟩
  else
    let a := aleatoricOf ψ ev.values
    let e := epistemicOf ev.values
    ⟨a, e, e * a⟩

/-- Per-step pipeline over a trace of raw score vectors: evidence transform
followed by the aleatoric/epistemic calculator, independently per step. -/
def perStep (ψ : ℚ → ℚ) (kappa : ℕ) (scores : List (List ℚ)) : List StepUncertainty :=
  scores.map (fun s => stepUncertaintyOf ψ (evidenceOfScores kappa s))

/-- Per-step unreliability values of a trace, in step order. -/
def stepUnreliabilities (ψ : ℚ → ℚ) (kappa : ℕ) (scores : List (List ℚ)) : List ℚ :=
  (perStep ψ kappa scores).map StepUncertainty.unreliability

/-- Ranking relation on (step index, unreliability) pairs: strictly larger
unreliability first, ties broken by lower step index (stable by step index). -/
def moreUnreliable (p q : ℕ × ℚ) : Prop :=
  q.2 < p.2 ∨ (p.2 = q.2 ∧ p.1 ≤ q.1)

instance : DecidableRel moreUnreliable := fun p q => by
  unfold moreUnreliable; infer_instance

instance : IsTrans (ℕ × ℚ) moreUnreliable := by
  constructor
  rintro ⟨i, a⟩ ⟨j, b⟩ ⟨k, c⟩ (h₁ | ⟨h₁, h₁i⟩) (h₂ | ⟨h₂, h₂i⟩)
  · exact Or.inl (h₂.trans h₁)
  · exact Or.inl (h₂ ▸ h₁)
  · exact Or.inl (h₁ ▸ h₂)
  · exact Or.inr ⟨h₁.trans h₂, h₁i.trans h₂i⟩

instance : IsTotal (ℕ × ℚ) moreUnreliable := by
  constructor
  rintro ⟨i, a⟩ ⟨j, b⟩
  rcases lt_trichotomy a b with h | h | h
  · exact Or.inr (Or.inl h)
  · rcases Nat.le_total i j with hij | hij
    · exact Or.inl (Or.inr ⟨h, hij⟩)
    · exact Or.inr (Or.inr ⟨h.symm, hij⟩)
  · exact Or.inl (Or.inl h)

/-- The m most unreliable steps: indexed unreliability values ranked by
`moreUnreliable`, truncated to the first m. -/
def topSteps (m : ℕ) (us : List ℚ) : List (ℕ × ℚ) :=
  (us.enum.insertionSort moreUnreliable).take m

/-- Unreliability Reducer.  The plain mean over all k steps is cell-16's
formula.  Modelled from the spec: the optional top_k_inconfident restriction
(average only the m most unreliable steps; cell-16 only mentions the authors
suggesting it, and `uncertainty.py`, which takes the top_k_inconfident
argument used by cells 22/24/26, is not part of the available sources). -/
def unreliabilityTotal (topk : Option ℕ) (us : List ℚ) : ℚ :=
  match topk with
  | none => us.sum / us.length
  | some m => ((topSteps m us).map Prod.snd).sum / ((topSteps m us).map Prod.snd).length

/-- Error taxonomy of the uncertainty core (spec error-handling design). -/
inductive UncertaintyError where
  | MalformedTrace
  | InvalidParameter
  | UnsupportedBatch
deriving DecidableEq

/-- Generation output bundle consumed by the uncertainty core (cell-10 /
input contract): batch size, prompt length, full token-id sequence of batch
element 0, and one raw score vector per generated step. -/
structure GenerationOutput where
  batchSize : ℕ
  promptLen : ℕ
  sequences : List ℕ
  scores : List (List ℚ)
deriving DecidableEq

/-- Number of newly generated tokens (cell-10: the full sequence minus the
prompt tokens). -/
def numGenerated (g : GenerationOutput) : ℕ := g.sequences.length - g.promptLen

/-- Vocabulary size V: the length of the per-step score vectors. -/
def vocabSize (g : GenerationOutput) : ℕ := (g.scores.headI).length

/-- Modelled from the spec: the default for κ (the spec ties the default to the
model configuration, e.g. 5 or 10); `uncertainty.py`, which holds the actual
default value, is not part of the available sources. -/
def defaultKappa : ℤ := 10

/-- Resolution of the optional κ argument against the implementation default. -/
def resolveKappa (kappaArg : Option ℤ) : ℤ := kappaArg.getD defaultKappa

/-- Invalid top_k_inconfident argument: supplied and ≤ 0. -/
def badTopK : Option ℤ → Prop
  | none => False
  | some m => m ≤ 0

instance : DecidablePred badTopK := fun t => by
  cases t <;> unfold badTopK <;> infer_instance

/-- Modelled from the spec: the trace validation shared by log_tok_u and the
baseline aggregators (batch-size-1 input contract, Trace Adapter shape
checks); `uncertainty.py` is not part of the available sources.  Checks run in
the order: batch size, trace shape. -/
def validateTrace (g : GenerationOutput) : Option UncertaintyError :=
  if g.batchSize ≠ 1 then some .UnsupportedBatch
  else if g.scores.length ≠ numGenerated g ∨ numGenerated g = 0 then some .MalformedTrace
  else none

/-- Modelled from the spec: the full validation logic of log_tok_u (trace
validation followed by the parameter checks of the error-handling taxonomy);
`uncertainty.py` is not part of the available sources. -/
def validate (g : GenerationOutput) (kappa : ℤ) (topk : Option ℤ) :
    Option UncertaintyError :=
  match validateTrace g with
  | some e => some e
  | none =>
    if kappa ≤ 0 ∨ (vocabSize g : ℤ) < kappa ∨ badTopK topk then some .InvalidParameter
    else none

/-- The public log_tok_u operation (README: logTokU), returning the
sequence-level unreliability together with the per-step detail.  Modelled from
the spec where `uncertainty.py` is missing from the available sources:
signature, validation, and the optional κ resolved against the default. -/
def logTokU (ψ : ℚ → ℚ) (g : GenerationOutput) (kappaArg : Option ℤ)
    (topk : Option ℤ) : Except UncertaintyError (ℚ × List StepUncertainty) :=
  let kappa := resolveKappa kappaArg
  match validate g kappa topk with
  | some e => .error e
  | none =>
    let steps := perStep ψ kappa.toNat g.scores
    let us := steps.map StepUncertainty.unreliability
    .ok (unreliabilityTotal (topk.map Int.toNat) us, steps)

/-- Softmax over a raw score vector (cell-10: torch.softmax over the logits of
one generation step). -/
noncomputable def softmax (l : List ℝ) : List ℝ :=
  l.map (fun x => Real.exp x / (l.map Real.exp).sum)

/-- One generation step as consumed by the confidence-extraction loop of
cell-10: the sampled token id and the raw score vector of that step. -/
structure StepRecord where
  chosenTokenId : ℕ
  rawScores : List ℝ

/-- Confidence Extractor (cell-10): the probability the step's softmax
distribution assigns to the chosen token. -/
noncomputable def confidence (s : StepRecord) : ℝ :=
  (softmax s.rawScores).getD s.chosenTokenId 0

/-- Naive token uncertainty (cell-16): one minus the product of the per-step
chosen-token confidences. -/
noncomputable def naiveUncertainty (cs : List ℝ) : ℝ := 1 - cs.prod

/-- Vanilla token uncertainty (cell-16): one minus the mean of the per-step
chosen-token confidences. -/
noncomputable def vanillaUncertainty (cs : List ℝ) : ℝ := 1 - cs.sum / cs.length

/-- Chosen-token confidences of a trace (cell-10 loop): for each newly
generated token, the softmax probability its step's raw scores assign to it. -/
noncomputable def confidences (g : GenerationOutput) : List ℝ :=
  ((g.sequences.drop g.promptLen).zip g.scores).map
    (fun p => confidence ⟨p.1, p.2.map (fun q => (q : ℝ))⟩)

/-- The public naive token-uncertainty operation (notebook cells 20/26:
U.token_uncertainty_naive over a generation output).  Modelled from the spec
where `uncertainty.py` is missing from the available sources: trace validation
surfacing UnsupportedBatch/MalformedTrace, then the cell-16 naive formula over
the extracted confidences. -/
noncomputable def tokenUncertaintyNaive (g : GenerationOutput) :
    Except UncertaintyError ℝ :=
  match validateTrace g with
  | some e => .error e
  | none => .ok (naiveUncertainty (confidences g))

/-- The public vanilla token-uncertainty operation (notebook cells 21/26:
U.token_uncertainty_vanilla over a generation output).  Modelled from the spec
where `uncertainty.py` is missing from the available sources: trace validation
surfacing UnsupportedBatch/MalformedTrace, then the cell-16 vanilla formula
over the extracted confidences. -/
noncomputable def tokenUncertaintyVanilla (g : GenerationOutput) :
    Except UncertaintyError ℝ :=
  match validateTrace g with
  | some e => .error e
  | none => .ok (vanillaUncertainty (confidences g))

/-- Harmonic-number extension used to witness digamma hypotheses: a concrete
rational function satisfying the digamma recurrence psiH (x+1) = psiH x + 1/x
for every x > 0. -/
def psiH (x : ℚ) : ℚ :=
  ∑ k in Finset.range (⌈x⌉ - 1).toNat, 1 / (x - ((⌈x⌉ : ℚ) - 1) + (k : ℚ))

/-- One call to U.logTokU as written in llms.ipynb: which of the optional
arguments the call site supplies. -/
structure LogTokUCall where
  kappaArg : Option ℤ
  topKArg : Option ℤ
deriving DecidableEq

/-- The U.logTokU call of llms.ipynb cell-22: only top_k_inconfident = 5 is
passed. -/
def cell22Call : LogTokUCall := ⟨none, some 5⟩

/-- The U.logTokU call of llms.ipynb cell-24: only top_k_inconfident = 10 is
passed. -/
def cell24Call : LogTokUCall := ⟨none, some 10⟩

/-- The U.logTokU call of llms.ipynb cell-26: only top_k_inconfident = 10 is
passed. -/
def cell26Call : LogTokUCall := ⟨none, some 10⟩

/-- All U.logTokU call sites of the notebook. -/
def notebookCalls : List LogTokUCall := [cell22Call, cell24Call, cell26Call]

/-- Reference value of the aleatoric uncertainty in the κ=2, α=[3,1] scenario,
computed from the digamma reference table digamma(2) ≈ 0.4228,
digamma(4) ≈ 1.2561, digamma(5) ≈ 1.5061. -/
def aleatoricRef : ℚ :=
  -(3/4 * (12561/10000 - 15061/10000) + 1/4 * (4228/10000 - 15061/10000))

/-! Helper lemmas shared by several claims. -/

lemma sum_nonpos_of_mem {l : List ℚ} (h : ∀ x ∈ l, x ≤ 0) : l.sum ≤ 0 := by
  induction l with
  | nil => simp
  | cons a t ih =>
    have ha := h a (by simp)
    have ht := ih (fun x hx => h x (by simp [hx]))
    rw [List.sum_cons]
    linarith

lemma mem_eq_zero_of_sum_eq_zero {l : List ℚ} (hnn : ∀ x ∈ l, 0 ≤ x)
    (hs : l.sum = 0) : ∀ x ∈ l, x = 0 := by
  induction l with
  | nil => intro x hx; cases hx
  | cons a t ih =>
    have ha : 0 ≤ a := hnn a (by simp)
    have ht : ∀ x ∈ t, 0 ≤ x := fun x hx => hnn x (by simp [hx])
    have hts : 0 ≤ t.sum := List.sum_nonneg ht
    rw [List.sum_cons] at hs
    intro x hx
    rcases List.mem_cons.mp hx with hx | hx
    · linarith [hx ▸ (by linarith : a = 0)]
    · exact ih ht (by linarith) x hx

lemma sorted_take_drop {l : List ℚ} (m : ℕ) (h : List.Sorted (· ≥ ·) l) :
    ∀ x ∈ l.take m, ∀ y ∈ l.drop m, y ≤ x := by
  have h2 : List.Pairwise (fun a b : ℚ => a ≥ b) (l.take m ++ l.drop m) := by
    rw [List.take_append_drop]; exact h
  exact fun x hx y hy => (List.pairwise_append.mp h2).2.2 x hx y hy

lemma sum_map_add_one (l : List ℚ) :
    (l.map (fun a => a + 1)).sum = l.sum + l.length := by
  induction l with
  | nil => simp
  | cons a t ih => simp [ih]; ring

lemma evidence_values_nonneg (kappa : ℕ) (scores : List ℚ) :
    ∀ x ∈ (evidenceOfScores kappa scores).values, 0 ≤ x := by
  intro x hx
  simp only [evidenceOfScores, List.mem_map] at hx
  obtain ⟨s, _, rfl⟩ := hx
  exact le_max_right s 0

/-- C3: the Evidence Transformer selects the κ largest raw scores (the selected
block dominates the rest of a permutation of the scores), clips negatives to 0,
and the resulting EvidenceVector has only non-negative entries, total equal to
the sum of entries, total ≥ 0, and total = 0 only if every selected raw score
was ≤ 0. -/
theorem evidence_transformer_invariants (kappa : ℕ) (scores : List ℚ) :
    (evidenceOfScores kappa scores).values = ((sortDesc scores).take kappa).map relu ∧
    List.Perm ((sortDesc scores).take kappa ++ (sortDesc scores).drop kappa) scores ∧
    (∀ x ∈ (sortDesc scores).take kappa, ∀ y ∈ (sortDesc scores).drop kappa, y ≤ x) ∧
    (∀ x ∈ (evidenceOfScores kappa scores).values, 0 ≤ x) ∧
    (evidenceOfScores kappa scores).total = (evidenceOfScores kappa scores).values.sum ∧
    0 ≤ (evidenceOfScores kappa scores).total ∧
    ((evidenceOfScores kappa scores).total = 0 →
      ∀ s ∈ (sortDesc scores).take kappa, s ≤ 0) := by
  refine ⟨rfl, ?_, ?_, evidence_values_nonneg kappa scores, rfl, ?_, ?_⟩
  · rw [List.take_append_drop]
    exact List.perm_insertionSort _ scores
  · exact sorted_take_drop kappa (List.sorted_insertionSort _ scores)
  · exact List.sum_nonneg (evidence_values_nonneg kappa scores)
  · intro htot s hs
    have hrelu : relu s ∈ (evidenceOfScores kappa scores).values := by
      simp only [evidenceOfScores]
      exact List.mem_map_of_mem relu hs
    have h0 : relu s = 0 :=
      mem_eq_zero_of_sum_eq_zero (evidence_values_nonneg kappa scores) htot
        (relu s) hrelu
    have hmax : max s 0 = 0 := h0
    exact max_eq_right_iff.mp hmax

/-- C3 witness: the Evidence Transformer evaluated at κ = 2 and the concrete
score vector [3, 1, −1, −2]. -/
theorem evidence_transformer_invariants_witness :
    (evidenceOfScores 2 [3, 1, -1, -2]).total
        = (evidenceOfScores 2 [3, 1, -1, -2]).values.sum ∧
    0 ≤ (evidenceOfScores 2 [3, 1, -1, -2]).total :=
  ⟨(evidence_transformer_invariants 2 [3, 1, -1, -2]).2.2.2.2.1,
   (evidence_transformer_invariants 2 [3, 1, -1, -2]).2.2.2.2.2.1⟩

/-- C2: for evidence vectors with non-negative entries and positive total, the
calculator's epistemic value lies in (0, 1] and its aleatoric value is ≥ 0
(given that ψ, standing for digamma, is monotone on [1, ∞)). -/
theorem epistemic_in_unit_aleatoric_nonneg (ψ : ℚ → ℚ)
    (hψ : MonotoneOn ψ (Set.Ici (1 : ℚ))) (alpha : List ℚ)
    (hnn : ∀ a ∈ alpha, 0 ≤ a) (hpos : 0 < alpha.sum) :
    0 < (stepUncertaintyOf ψ ⟨alpha, alpha.sum⟩).epistemic ∧
    (stepUncertaintyOf ψ ⟨alpha, alpha.sum⟩).epistemic ≤ 1 ∧
    0 ≤ (stepUncertaintyOf ψ ⟨alpha, alpha.sum⟩).aleatoric := by
  have hne : alpha ≠ [] := by
    intro h; rw [h] at hpos; simp at hpos
  have hlen : 0 < (alpha.length : ℚ) := by
    have := List.length_pos.mpr hne
    exact_mod_cast this
  have hden : (alpha.map (fun a => a + 1)).sum = alpha.sum + alpha.length :=
    sum_map_add_one alpha
  have hdenpos : 0 < (alpha.map (fun a => a + 1)).sum := by
    rw [hden]; linarith
  simp only [stepUncertaintyOf, if_neg (ne_of_gt hpos)]
  refine ⟨?_, ?_, ?_⟩
  · exact div_pos hlen hdenpos
  · rw [epistemicOf, div_le_one hdenpos, hden]; linarith
  · rw [aleatoricOf, neg_nonneg]
    apply sum_nonpos_of_mem
    intro x hx
    simp only [List.mem_map] at hx
    obtain ⟨a, ha, rfl⟩ := hx
    have ha0 : 0 ≤ a := hnn a ha
    have haS : a ≤ alpha.sum := List.single_le_sum hnn a ha
    have hψle : ψ (a + 1) ≤ ψ (alpha.sum + 1) := by
      apply hψ (by simp; linarith) (by simp; linarith)
      linarith
    have hfrac : 0 ≤ a / alpha.sum := div_nonneg ha0 hpos.le
    have : ψ (a + 1) - ψ (alpha.sum + 1) ≤ 0 := by linarith
    exact mul_nonpos_of_nonneg_of_nonpos hfrac this

/-- C2 witness: concrete evaluation at ψ = id, α = [3, 1]. -/
theorem epistemic_in_unit_aleatoric_nonneg_witness :
    0 < (stepUncertaintyOf id ⟨[3, 1], List.sum [3, 1]⟩).epistemic ∧
    (stepUncertaintyOf id ⟨[3, 1], List.sum [3, 1]⟩).epistemic ≤ 1 ∧
    0 ≤ (stepUncertaintyOf id ⟨[3, 1], List.sum [3, 1]⟩).aleatoric :=
  epistemic_in_unit_aleatoric_nonneg id (fun a _ b _ h => h) [3, 1]
    (by norm_num) (by norm_num)

/-- C8: scaling an evidence vector with non-negative entries by λ ≥ 1 does not
increase the epistemic value. -/
theorem epistemic_antitone_in_scale (alpha : List ℚ) (hnn : ∀ a ∈ alpha, 0 ≤ a)
    (lam : ℚ) (hlam : 1 ≤ lam) :
    epistemicOf (alpha.map (fun a => lam * a)) ≤ epistemicOf alpha := by
  rcases eq_or_ne alpha [] with rfl | hne
  · simp [epistemicOf]
  · have hlen : 0 < (alpha.length : ℚ) := by
      exact_mod_cast List.length_pos.mpr hne
    have hS : 0 ≤ alpha.sum := List.sum_nonneg hnn
    have hSlam : alpha.sum ≤ (alpha.map (fun a => lam * a)).sum := by
      rw [List.sum_map_mul_left]
      simp only [List.map_id']
      nlinarith
    have hd1 : (alpha.map (fun a => a + 1)).sum = alpha.sum + alpha.length :=
      sum_map_add_one alpha
    have hd2 : ((alpha.map (fun a => lam * a)).map (fun a => a + 1)).sum
        = (alpha.map (fun a => lam * a)).sum + alpha.length := by
      rw [sum_map_add_one]; simp
    rw [epistemicOf, epistemicOf, List.length_map, hd1, hd2]
    have h1 : 0 < alpha.sum + (alpha.length : ℚ) := by linarith
    gcongr

/-- C8 witness: concrete evaluation at α = [1, 2], λ = 3. -/
theorem epistemic_antitone_in_scale_witness :
    epistemicOf ([1, 2].map (fun a => (3:ℚ) * a)) ≤ epistemicOf [1, 2] :=
  epistemic_antitone_in_scale [1, 2] (by decide) 3 (by decide)

lemma psiH_rec (x : ℚ) (hx : 0 < x) : psiH (x + 1) = psiH x + 1 / x := by
  have hceil : ⌈x + 1⌉ = ⌈x⌉ + 1 := by exact_mod_cast Int.ceil_add_one x
  have hpos : 0 < ⌈x⌉ := Int.ceil_pos.mpr hx
  have hn : (⌈x + 1⌉ - 1).toNat = (⌈x⌉ - 1).toNat + 1 := by omega
  have hcast : ((⌈x⌉ - 1).toNat : ℚ) = (⌈x⌉ : ℚ) - 1 := by
    have h1 : ((⌈x⌉ - 1).toNat : ℤ) = ⌈x⌉ - 1 := Int.toNat_of_nonneg (by omega)
    exact_mod_cast congrArg (fun z : ℤ => (z : ℚ)) h1
  simp only [psiH, hn, Finset.sum_range_succ]
  congr 1
  · apply Finset.sum_congr rfl
    intro k _
    congr 1
    rw [hceil]
    push_cast
    ring
  · rw [hceil]
    push_cast
    rw [hcast]
    congr 1
    ring

/-- C1: for α₀ ≠ 0 the step calculator computes exactly the cell-16 aleatoric
and epistemic formulas, and in the κ=2, α=[3,1] scenario it returns
epistemic = 1/3 and an aleatoric value within 1e-3 of the reference digamma
closed form (ψ stands for digamma, characterized by its recurrence on x > 0). -/
theorem logTokU_step_formulas_and_scenario (ψ : ℚ → ℚ)
    (hψ : ∀ x : ℚ, 0 < x → ψ (x + 1) = ψ x + 1 / x) :
    (∀ alpha : List ℚ, alpha.sum ≠ 0 →
      (stepUncertaintyOf ψ ⟨alpha, alpha.sum⟩).aleatoric
          = -(alpha.map (fun a => a / alpha.sum * (ψ (a + 1) - ψ (alpha.sum + 1)))).sum ∧
      (stepUncertaintyOf ψ ⟨alpha, alpha.sum⟩).epistemic
          = (alpha.length : ℚ) / (alpha.map (fun a => a + 1)).sum) ∧
    (stepUncertaintyOf ψ (evidenceOfScores 2 [3, 1, -1, -2])).epistemic = 1 / 3 ∧
    |(stepUncertaintyOf ψ (evidenceOfScores 2 [3, 1, -1, -2])).aleatoric - aleatoricRef|
      ≤ 1 / 1000 := by
  have h2 := hψ 1 (by norm_num)
  have h3 := hψ 2 (by norm_num)
  have h4 := hψ 3 (by norm_num)
  have h5 := hψ 4 (by norm_num)
  norm_num at h2 h3 h4 h5
  have hev : evidenceOfScores 2 [3, 1, -1, -2] = ⟨[3, 1], 4⟩ := by
    norm_num [evidenceOfScores, sortDesc, List.insertionSort, List.orderedInsert,
      relu, EvidenceVector.mk.injEq]
  have hne : (4 : ℚ) ≠ 0 := by norm_num
  have hstep : stepUncertaintyOf ψ ⟨[3, 1], 4⟩
      = ⟨aleatoricOf ψ [3, 1], epistemicOf [3, 1],
          epistemicOf [3, 1] * aleatoricOf ψ [3, 1]⟩ := by
    rw [stepUncertaintyOf, if_neg hne]
  have hal : aleatoricOf ψ [3, 1] = 11 / 24 := by
    rw [aleatoricOf]
    norm_num
    linarith [h2, h3, h4, h5]
  have hep : epistemicOf [3, 1] = 1 / 3 := by
    rw [epistemicOf]
    norm_num
  refine ⟨?_, ?_, ?_⟩
  · intro alpha h0
    rw [stepUncertaintyOf, if_neg h0]
    exact ⟨rfl, rfl⟩
  · rw [hev, hstep, hep]
  · rw [hev, hstep]
    simp only [hal, aleatoricRef]
    rw [abs_le]
    constructor <;> norm_num

/-- C1 witness: the scenario evaluated at the concrete digamma model psiH. -/
theorem logTokU_step_formulas_and_scenario_witness :
    (stepUncertaintyOf psiH (evidenceOfScores 2 [3, 1, -1, -2])).epistemic = 1 / 3 ∧
    |(stepUncertaintyOf psiH (evidenceOfScores 2 [3, 1, -1, -2])).aleatoric - aleatoricRef|
      ≤ 1 / 1000 :=
  ⟨(logTokU_step_formulas_and_scenario psiH (fun x hx => psiH_rec x hx)).2.1,
   (logTokU_step_formulas_and_scenario psiH (fun x hx => psiH_rec x hx)).2.2⟩

lemma prod_unit {cs : List ℝ} (h : ∀ c ∈ cs, 0 ≤ c ∧ c ≤ 1) :
    0 ≤ cs.prod ∧ cs.prod ≤ 1 := by
  induction cs with
  | nil => norm_num
  | cons a t ih =>
    obtain ⟨ha0, ha1⟩ := h a (by simp)
    obtain ⟨ht0, ht1⟩ := ih (fun c hc => h c (by simp [hc]))
    rw [List.prod_cons]
    exact ⟨mul_nonneg ha0 ht0, mul_le_one ha1 ht0 ht1⟩

/-- C5: for non-empty confidence lists with entries in [0,1], naive and vanilla
uncertainty equal their cell-16 formulas, both lie in [0,1], naive is 1 when
some confidence is 0, and both are 0 when every confidence is 1. -/
theorem baseline_uncertainties_unit_range (cs : List ℝ) (hne : cs ≠ [])
    (h : ∀ c ∈ cs, 0 ≤ c ∧ c ≤ 1) :
    naiveUncertainty cs = 1 - cs.prod ∧
    vanillaUncertainty cs = 1 - cs.sum / cs.length ∧
    0 ≤ naiveUncertainty cs ∧ naiveUncertainty cs ≤ 1 ∧
    0 ≤ vanillaUncertainty cs ∧ vanillaUncertainty cs ≤ 1 ∧
    ((∃ c ∈ cs, c = 0) → naiveUncertainty cs = 1) ∧
    ((∀ c ∈ cs, c = 1) → naiveUncertainty cs = 0 ∧ vanillaUncertainty cs = 0) := by
  have hlen : 0 < (cs.length : ℝ) := by
    exact_mod_cast List.length_pos.mpr hne
  obtain ⟨hp0, hp1⟩ := prod_unit h
  have hs0 : 0 ≤ cs.sum := List.sum_nonneg (fun c hc => (h c hc).1)
  have hs1 : cs.sum ≤ (cs.length : ℝ) := by
    have := List.sum_le_card_nsmul cs 1 (fun c hc => (h c hc).2)
    simpa using this
  refine ⟨rfl, rfl, ?_, ?_, ?_, ?_, ?_, ?_⟩
  · rw [naiveUncertainty]; linarith
  · rw [naiveUncertainty]; linarith
  · rw [vanillaUncertainty]
    have hd : cs.sum / cs.length ≤ 1 := by
      rw [div_le_one hlen]; exact hs1
    linarith
  · rw [vanillaUncertainty]
    have hd : 0 ≤ cs.sum / cs.length := div_nonneg hs0 hlen.le
    linarith
  · rintro ⟨c, hc, rfl⟩
    rw [naiveUncertainty, List.prod_eq_zero hc]
    ring
  · intro hall
    have hprod : cs.prod = 1 := List.prod_eq_one hall
    have hsum : cs.sum = (cs.length : ℝ) := by
      have := List.sum_eq_card_nsmul cs 1 hall
      simpa using this
    refine ⟨?_, ?_⟩
    · rw [naiveUncertainty, hprod]; ring
    · rw [vanillaUncertainty, hsum, div_self hlen.ne']; ring

/-- C5 witness: concrete evaluation at the confidence list [1/2, 1]. -/
theorem baseline_uncertainties_unit_range_witness :
    naiveUncertainty [1/2, 1] = 1 - List.prod [1/2, 1] ∧
    vanillaUncertainty [1/2, 1] = 1 - List.sum [1/2, 1] / (List.length [(1:ℝ)/2, 1]) ∧
    0 ≤ naiveUncertainty [1/2, 1] ∧ naiveUncertainty [1/2, 1] ≤ 1 ∧
    0 ≤ vanillaUncertainty [1/2, 1] ∧ vanillaUncertainty [1/2, 1] ≤ 1 ∧
    ((∃ c ∈ [(1:ℝ)/2, 1], c = 0) → naiveUncertainty [1/2, 1] = 1) ∧
    ((∀ c ∈ [(1:ℝ)/2, 1], c = 1) → naiveUncertainty [1/2, 1] = 0 ∧
      vanillaUncertainty [1/2, 1] = 0) :=
  baseline_uncertainties_unit_range [1/2, 1] (by simp) (by norm_num)

lemma softmax_exp_sum_pos {l : List ℝ} (hne : l ≠ []) :
    0 < (l.map Real.exp).sum := by
  apply List.sum_pos
  · intro x hx
    simp only [List.mem_map] at hx
    obtain ⟨a, _, rfl⟩ := hx
    exact Real.exp_pos a
  · simpa using hne

/-- C10: when the chosen token id is a valid index into the step's raw score
vector, the softmax vector has the same length V, the probability lookup is in
bounds, and the extracted confidence lies in [0, 1]. -/
theorem confidence_lookup_in_bounds (s : StepRecord)
    (h : s.chosenTokenId < s.rawScores.length) :
    (softmax s.rawScores).length = s.rawScores.length ∧
    ∃ c, (softmax s.rawScores).get? s.chosenTokenId = some c ∧
      confidence s = c ∧ 0 ≤ c ∧ c ≤ 1 := by
  have hne : s.rawScores ≠ [] := by
    intro he; rw [he] at h; simp at h
  have hS : 0 < (s.rawScores.map Real.exp).sum := softmax_exp_sum_pos hne
  have hget : (softmax s.rawScores).get? s.chosenTokenId
      = some (Real.exp (s.rawScores.get ⟨s.chosenTokenId, h⟩)
          / (s.rawScores.map Real.exp).sum) := by
    rw [softmax, List.get?_map, List.get?_eq_get h]
    rfl
  refine ⟨by simp [softmax], _, hget, ?_, ?_, ?_⟩
  · rw [confidence, List.getD_eq_get?, hget]
    rfl
  · exact div_nonneg (Real.exp_pos _).le hS.le
  · rw [div_le_one hS]
    apply List.single_le_sum (fun x hx => ?_)
    · exact List.mem_map_of_mem Real.exp (List.get_mem _ _ _)
    · simp only [List.mem_map] at hx
      obtain ⟨a, _, rfl⟩ := hx
      exact (Real.exp_pos a).le

/-- C10 witness: concrete evaluation at a step with two raw scores. -/
theorem confidence_lookup_in_bounds_witness :
    (softmax (StepRecord.mk 0 [0, 0]).rawScores).length
        = (StepRecord.mk 0 [0, 0]).rawScores.length ∧
    ∃ c, (softmax (StepRecord.mk 0 [0, 0]).rawScores).get?
        (StepRecord.mk 0 [0, 0]).chosenTokenId = some c ∧
      confidence (StepRecord.mk 0 [0, 0]) = c ∧ 0 ≤ c ∧ c ≤ 1 :=
  confidence_lookup_in_bounds (StepRecord.mk 0 [0, 0]) (by decide)

lemma sorted_enum_perm (us : List ℚ) :
    List.Perm (us.enum.insertionSort moreUnreliable) us.enum :=
  List.perm_insertionSort _ _

lemma sorted_enum_sorted (us : List ℚ) :
    List.Sorted moreUnreliable (us.enum.insertionSort moreUnreliable) :=
  List.sorted_insertionSort _ _

lemma pairwise_take_drop {α : Type} {r : α → α → Prop} {l : List α} (m : ℕ)
    (h : List.Pairwise r l) : ∀ x ∈ l.take m, ∀ y ∈ l.drop m, r x y := by
  have h2 : List.Pairwise r (l.take m ++ l.drop m) := by
    rw [List.take_append_drop]; exact h
  exact fun x hx y hy => (List.pairwise_append.mp h2).2.2 x hx y hy

lemma sortedEnum_fst_nodup (us : List ℚ) :
    ((us.enum.insertionSort moreUnreliable).map Prod.fst).Nodup := by
  have hperm : List.Perm ((us.enum.insertionSort moreUnreliable).map Prod.fst)
      (us.enum.map Prod.fst) := (sorted_enum_perm us).map Prod.fst
  rw [hperm.nodup_iff, List.enum_map_fst]
  exact List.nodup_range _

lemma topSteps_spec (m : ℕ) (us : List ℚ) :
    List.Perm (topSteps m us ++ (us.enum.insertionSort moreUnreliable).drop m) us.enum ∧
    (∀ p ∈ topSteps m us, ∀ q ∈ (us.enum.insertionSort moreUnreliable).drop m,
      q.2 < p.2 ∨ (p.2 = q.2 ∧ p.1 < q.1)) := by
  constructor
  · rw [topSteps, List.take_append_drop]
    exact sorted_enum_perm us
  · intro p hp q hq
    have hrel : moreUnreliable p q :=
      pairwise_take_drop m (sorted_enum_sorted us) p hp q hq
    rcases hrel with h | ⟨hv, hi⟩
    · exact Or.inl h
    · refine Or.inr ⟨hv, lt_of_le_of_ne hi ?_⟩
      intro heq
      have hnd := sortedEnum_fst_nodup us
      have hsplit : (us.enum.insertionSort moreUnreliable).map Prod.fst
          = (topSteps m us).map Prod.fst
            ++ ((us.enum.insertionSort moreUnreliable).drop m).map Prod.fst := by
        rw [topSteps, ← List.map_append, List.take_append_drop]
      rw [hsplit] at hnd
      have hdisj := (List.nodup_append.mp hnd).2.2
      exact hdisj (List.mem_map_of_mem Prod.fst hp)
        (heq ▸ List.mem_map_of_mem Prod.fst hq)

lemma unreliabilityTotal_all (us : List ℚ) (m : ℕ) (hm : us.length ≤ m) :
    unreliabilityTotal (some m) us = us.sum / us.length := by
  have hlen : (us.enum.insertionSort moreUnreliable).length = us.length := by
    rw [List.length_insertionSort, List.enum_length]
  have htake : topSteps m us = us.enum.insertionSort moreUnreliable := by
    rw [topSteps, List.take_of_length_le (by rw [hlen]; exact hm)]
  have hperm : List.Perm ((topSteps m us).map Prod.snd) us := by
    rw [htake]
    have h2 := (sorted_enum_perm us).map Prod.snd
    rwa [List.enum_map_snd] at h2
  rw [unreliabilityTotal, hperm.sum_eq, hperm.length_eq]

lemma topSteps_length (m : ℕ) (us : List ℚ) (hm : m ≤ us.length) :
    (topSteps m us).length = m := by
  rw [topSteps, List.length_take, List.length_insertionSort, List.enum_length]
  omega

lemma unreliabilityTotal_topm (us : List ℚ) (m : ℕ) (hm : m ≤ us.length) :
    ∃ sel rest : List (ℕ × ℚ), sel.length = m ∧
      List.Perm (sel ++ rest) us.enum ∧
      (∀ p ∈ sel, ∀ q ∈ rest, q.2 < p.2 ∨ (p.2 = q.2 ∧ p.1 < q.1)) ∧
      unreliabilityTotal (some m) us = (sel.map Prod.snd).sum / m := by
  obtain ⟨hperm, hdom⟩ := topSteps_spec m us
  refine ⟨topSteps m us, (us.enum.insertionSort moreUnreliable).drop m,
    topSteps_length m us hm, hperm, hdom, ?_⟩
  rw [unreliabilityTotal, List.length_map, topSteps_length m us hm]

lemma unreliabilityTotal_one (us : List ℚ) (hne : us ≠ []) :
    ∃ i : ℕ, ∃ hi : i < us.length,
      unreliabilityTotal (some 1) us = us.get ⟨i, hi⟩ ∧
      (∀ j (hj : j < us.length), us.get ⟨j, hj⟩ ≤ us.get ⟨i, hi⟩) ∧
      (∀ j (hj : j < us.length), j < i → us.get ⟨j, hj⟩ < us.get ⟨i, hi⟩) := by
  have h1 : 1 ≤ us.length := List.length_pos.mpr hne
  obtain ⟨sel, rest, hlen1, hperm, hdom, heq⟩ := unreliabilityTotal_topm us 1 h1
  obtain ⟨p, rfl⟩ : ∃ p, sel = [p] := List.length_eq_one.mp hlen1
  obtain ⟨i, v⟩ := p
  have hpmem : (i, v) ∈ us.enum := hperm.subset (by simp)
  have hpget : us[i]? = some v := List.mk_mem_enum_iff_getElem?.mp hpmem
  have hip : i < us.length := (List.getElem?_eq_some.mp hpget).1
  have hpv : us.get ⟨i, hip⟩ = v := by
    obtain ⟨h, hv⟩ := List.getElem?_eq_some.mp hpget
    rw [List.get_eq_getElem]
    exact hv
  have hmem_all : ∀ j (hj : j < us.length),
      (j, us.get ⟨j, hj⟩) = (i, v) ∨ (j, us.get ⟨j, hj⟩) ∈ rest := by
    intro j hj
    have hjmem : (j, us.get ⟨j, hj⟩) ∈ us.enum := by
      apply List.mk_mem_enum_iff_getElem?.mpr
      rw [List.getElem?_eq_getElem hj, List.get_eq_getElem]
    have := hperm.symm.subset hjmem
    simpa using this
  refine ⟨i, hip, ?_, ?_, ?_⟩
  · rw [heq, hpv]
    simp
  · intro j hj
    rcases hmem_all j hj with h | h
    · have hv2 : us.get ⟨j, hj⟩ = v := congrArg Prod.snd h
      rw [hpv, hv2]
    · rw [hpv]
      rcases hdom (i, v) (by simp) _ h with hlt | ⟨hv, _⟩
      · exact le_of_lt hlt
      · exact le_of_eq hv.symm
  · intro j hj hji
    rcases hmem_all j hj with h | h
    · have hj2 : j = i := congrArg Prod.fst h
      omega
    · rw [hpv]
      rcases hdom (i, v) (by simp) _ h with hlt | ⟨_, hv⟩
      · exact hlt
      · have hlt2 : i < j := hv
        omega

lemma stepUncertainty_unreliability_eq (ψ : ℚ → ℚ) (ev : EvidenceVector) :
    (stepUncertaintyOf ψ ev).unreliability
      = (stepUncertaintyOf ψ ev).epistemic * (stepUncertaintyOf ψ ev).aleatoric := by
  rw [stepUncertaintyOf]
  split <;> simp

lemma stepUnreliabilities_length (ψ : ℚ → ℚ) (kappa : ℕ) (scores : List (List ℚ)) :
    (stepUnreliabilities ψ kappa scores).length = scores.length := by
  simp [stepUnreliabilities, perStep]

/-- C4: each step's unreliability is epistemic·aleatoric; the reduction
averages all k steps when top_k_inconfident is unset or ≥ k; for m < k it
averages the m most unreliable steps, ranked descending with ties broken
stably by step index; and for top_k_inconfident = 1 it returns exactly the
single step of maximal unreliability, lowest index on ties. -/
theorem unreliability_reduction_correct (ψ : ℚ → ℚ) (kappa : ℕ)
    (scores : List (List ℚ)) (hk : scores ≠ []) :
    (∀ s ∈ perStep ψ kappa scores, s.unreliability = s.epistemic * s.aleatoric) ∧
    unreliabilityTotal none (stepUnreliabilities ψ kappa scores)
      = (stepUnreliabilities ψ kappa scores).sum / scores.length ∧
    (∀ m : ℕ, scores.length ≤ m →
      unreliabilityTotal (some m) (stepUnreliabilities ψ kappa scores)
        = (stepUnreliabilities ψ kappa scores).sum / scores.length) ∧
    (∀ m : ℕ, 0 < m → m < scores.length → ∃ sel rest : List (ℕ × ℚ),
      sel.length = m ∧
      List.Perm (sel ++ rest) (stepUnreliabilities ψ kappa scores).enum ∧
      (∀ p ∈ sel, ∀ q ∈ rest, q.2 < p.2 ∨ (p.2 = q.2 ∧ p.1 < q.1)) ∧
      unreliabilityTotal (some m) (stepUnreliabilities ψ kappa scores)
        = (sel.map Prod.snd).sum / m) ∧
    (∃ i : ℕ, ∃ hi : i < (stepUnreliabilities ψ kappa scores).length,
      unreliabilityTotal (some 1) (stepUnreliabilities ψ kappa scores)
        = (stepUnreliabilities ψ kappa scores).get ⟨i, hi⟩ ∧
      (∀ j (hj : j < (stepUnreliabilities ψ kappa scores).length),
        (stepUnreliabilities ψ kappa scores).get ⟨j, hj⟩
          ≤ (stepUnreliabilities ψ kappa scores).get ⟨i, hi⟩) ∧
      (∀ j (hj : j < (stepUnreliabilities ψ kappa scores).length), j < i →
        (stepUnreliabilities ψ kappa scores).get ⟨j, hj⟩
          < (stepUnreliabilities ψ kappa scores).get ⟨i, hi⟩)) := by
  have hlen := stepUnreliabilities_length ψ kappa scores
  have hne : stepUnreliabilities ψ kappa scores ≠ [] := by
    intro h
    rw [h] at hlen
    exact hk (List.length_eq_zero.mp hlen.symm)
  refine ⟨?_, ?_, ?_, ?_, ?_⟩
  · intro s hs
    simp only [perStep, List.mem_map] at hs
    obtain ⟨sc, _, rfl⟩ := hs
    exact stepUncertainty_unreliability_eq ψ _
  · rw [unreliabilityTotal, hlen]
  · intro m hm
    rw [unreliabilityTotal_all _ m (by rw [hlen]; exact hm), hlen]
  · intro m _ hm
    exact unreliabilityTotal_topm _ m (by rw [hlen]; omega)
  · exact unreliabilityTotal_one _ hne

/-- C4 witness: the all-steps mean at a concrete one-step trace. -/
theorem unreliability_reduction_correct_witness :
    ([[(1:ℚ)]] ≠ ([] : List (List ℚ))) ∧
    unreliabilityTotal none (stepUnreliabilities (fun _ => 0) 1 [[(1:ℚ)]])
      = (stepUnreliabilities (fun _ => 0) 1 [[(1:ℚ)]]).sum
          / (List.length [[(1:ℚ)]]) :=
  ⟨by simp, (unreliability_reduction_correct (fun _ => 0) 1 [[(1:ℚ)]] (by simp)).2.1⟩

/-- C6: a step whose total evidence α₀ is 0 receives the documented fallback
epistemic = 1 and aleatoric = 0 instead of the division by α₀, and the step
contributes unreliability 0 to the per-step list feeding the sequence-level
aggregate. -/
theorem degenerate_step_fallback (ψ : ℚ → ℚ) (kappa : ℕ) (scores : List (List ℚ))
    (i : ℕ) (hi : i < scores.length)
    (h0 : (evidenceOfScores kappa (scores.get ⟨i, hi⟩)).total = 0)
    (hi' : i < (perStep ψ kappa scores).length)
    (hi'' : i < (stepUnreliabilities ψ kappa scores).length) :
    (perStep ψ kappa scores).get ⟨i, hi'⟩ = ⟨0, 1, 0⟩ ∧
    (stepUnreliabilities ψ kappa scores).get ⟨i, hi''⟩ = 0 := by
  have hstep : (perStep ψ kappa scores).get ⟨i, hi'⟩
      = stepUncertaintyOf ψ (evidenceOfScores kappa (scores.get ⟨i, hi⟩)) := by
    simp [perStep, List.get_eq_getElem, List.getElem_map]
  have hfb : stepUncertaintyOf ψ (evidenceOfScores kappa (scores.get ⟨i, hi⟩))
      = ⟨0, 1, 0⟩ := by
    rw [stepUncertaintyOf, if_pos h0]
  refine ⟨hstep.trans hfb, ?_⟩
  have : (stepUnreliabilities ψ kappa scores).get ⟨i, hi''⟩
      = ((perStep ψ kappa scores).get ⟨i, hi'⟩).unreliability := by
    simp [stepUnreliabilities, List.get_eq_getElem, List.getElem_map]
  rw [this, hstep.trans hfb]

/-- C6 witness: a one-step trace whose only raw score is negative. -/
theorem degenerate_step_fallback_witness :
    (evidenceOfScores 1 (List.get [[(-1:ℚ)]] ⟨0, by norm_num⟩)).total = 0 ∧
    (perStep (fun _ => 0) 1 [[(-1:ℚ)]]).get ⟨0, by simp [perStep]⟩ = ⟨0, 1, 0⟩ ∧
    (stepUnreliabilities (fun _ => 0) 1 [[(-1:ℚ)]]).get
      ⟨0, by simp [stepUnreliabilities, perStep]⟩ = 0 := by
  have h0 : (evidenceOfScores 1 (List.get [[(-1:ℚ)]] ⟨0, by norm_num⟩)).total = 0 := by
    norm_num [evidenceOfScores, sortDesc, List.insertionSort, List.orderedInsert, relu]
  have h := degenerate_step_fallback (fun _ => 0) 1 [[(-1:ℚ)]] 0 (by norm_num) h0
    (by simp [perStep]) (by simp [stepUnreliabilities, perStep])
  exact ⟨h0, h.1, h.2⟩

/-- C7: log_tok_u and the baseline aggregators reject invalid input without a
partial result: with batch size ≠ 1 all three public operations return
UnsupportedBatch; with batch size 1, a score-vector count that differs from
the generated-token count or k = 0 makes all three return MalformedTrace;
with batch size 1 and a well-shaped trace, κ ≤ 0, κ > V, or a supplied
top_k_inconfident ≤ 0 makes log_tok_u return InvalidParameter. -/
theorem logTokU_rejects_invalid (ψ : ℚ → ℚ) (g : GenerationOutput)
    (kappaArg : Option ℤ) (topk : Option ℤ) :
    (g.batchSize ≠ 1 →
      logTokU ψ g kappaArg topk = .error .UnsupportedBatch ∧
      tokenUncertaintyNaive g = .error .UnsupportedBatch ∧
      tokenUncertaintyVanilla g = .error .UnsupportedBatch) ∧
    (g.batchSize = 1 → (g.scores.length ≠ numGenerated g ∨ numGenerated g = 0) →
      logTokU ψ g kappaArg topk = .error .MalformedTrace ∧
      tokenUncertaintyNaive g = .error .MalformedTrace ∧
      tokenUncertaintyVanilla g = .error .MalformedTrace) ∧
    (g.batchSize = 1 → g.scores.length = numGenerated g → numGenerated g ≠ 0 →
      (resolveKappa kappaArg ≤ 0 ∨ (vocabSize g : ℤ) < resolveKappa kappaArg ∨
        badTopK topk) →
      logTokU ψ g kappaArg topk = .error .InvalidParameter) := by
  refine ⟨?_, ?_, ?_⟩
  · intro h1
    have hv : validateTrace g = some .UnsupportedBatch := by
      rw [validateTrace, if_pos h1]
    have hv2 : validate g (resolveKappa kappaArg) topk = some .UnsupportedBatch := by
      rw [validate, hv]
    exact ⟨by simp only [logTokU, hv2], by simp only [tokenUncertaintyNaive, hv],
      by simp only [tokenUncertaintyVanilla, hv]⟩
  · intro h1 h2
    have hv : validateTrace g = some .MalformedTrace := by
      rw [validateTrace, if_neg (fun hne => hne h1), if_pos h2]
    have hv2 : validate g (resolveKappa kappaArg) topk = some .MalformedTrace := by
      rw [validate, hv]
    exact ⟨by simp only [logTokU, hv2], by simp only [tokenUncertaintyNaive, hv],
      by simp only [tokenUncertaintyVanilla, hv]⟩
  · intro h1 h2 h3 h4
    have hv : validateTrace g = none := by
      rw [validateTrace, if_neg (fun hne => hne h1),
        if_neg (by push_neg; exact ⟨h2, h3⟩)]
    have hv2 : validate g (resolveKappa kappaArg) topk = some .InvalidParameter := by
      rw [validate, hv]
      exact if_pos h4
    simp only [logTokU, hv2]

/-- C7 witness: three concrete invalid inputs, one per error case, rejected by
all the public operations the case applies to. -/
theorem logTokU_rejects_invalid_witness :
    logTokU (fun _ => 0) ⟨2, 0, [0], [[0]]⟩ none none
        = .error .UnsupportedBatch ∧
    tokenUncertaintyNaive ⟨2, 0, [0], [[0]]⟩ = .error .UnsupportedBatch ∧
    tokenUncertaintyVanilla ⟨2, 0, [0], [[0]]⟩ = .error .UnsupportedBatch ∧
    logTokU (fun _ => 0) ⟨1, 0, [0], []⟩ none none
        = .error .MalformedTrace ∧
    tokenUncertaintyNaive ⟨1, 0, [0], []⟩ = .error .MalformedTrace ∧
    tokenUncertaintyVanilla ⟨1, 0, [0], []⟩ = .error .MalformedTrace ∧
    logTokU (fun _ => 0) ⟨1, 0, [0], [[1]]⟩ (some 0) none
        = .error .InvalidParameter := by
  have h1 := (logTokU_rejects_invalid (fun _ => 0) ⟨2, 0, [0], [[0]]⟩ none none).1
    (by norm_num)
  have h2 := (logTokU_rejects_invalid (fun _ => 0) ⟨1, 0, [0], []⟩ none none).2.1
    rfl (by norm_num [numGenerated])
  have h3 := (logTokU_rejects_invalid (fun _ => 0) ⟨1, 0, [0], [[1]]⟩ (some 0) none).2.2
    rfl (by norm_num [numGenerated]) (by norm_num [numGenerated])
    (Or.inl (by norm_num [resolveKappa]))
  exact ⟨h1.1, h1.2.1, h1.2.2, h2.1, h2.2.1, h2.2.2, h3⟩

/-- C9 counterexample: the claim that every call supplies κ fails on the
notebook: the cell-22 call is a notebook call and passes no κ argument. -/
theorem kappa_not_caller_supplied :
    cell22Call ∈ notebookCalls ∧ cell22Call.kappaArg = none ∧
    ¬(∀ c ∈ notebookCalls, c.kappaArg.isSome = true) := by
  refine ⟨by simp [notebookCalls], rfl, ?_⟩
  intro hall
  have h := hall cell22Call (by simp [notebookCalls])
  simp [cell22Call] at h

/-- C9 amended: κ is an optional parameter of logTokU; every notebook call
omits it (supplying only top_k_inconfident), and an omitted κ resolves to the
implementation default. -/
theorem kappa_defaulted_at_call_sites :
    (notebookCalls.all fun c => c.kappaArg.isNone && c.topKArg.isSome) = true ∧
    resolveKappa cell22Call.kappaArg = defaultKappa :=
  ⟨rfl, rfl⟩

end LLMUncertainty
